import Mathlib

/-!
# Verification of the bounded test queue and acceptance-criteria extractor

Shallow embedding of the core logic of the `linear-stagehand-tests` repository:

* `extractAcceptanceCriteria` (src/src/types/index.ts, lines 524-570): a pure
  parser turning ticket description text into an ordered list of criteria.
* `TestQueue` (src/src/types/index.ts, lines 114-210): a bounded-concurrency
  scheduler, modelled as a state machine over explicit enqueue/settle events.
* the per-issue dedup logic of the `/linear` webhook route
  (`issueTests` map, routes file lines 274-305), modelled as `acceptRun`.

JavaScript strings are modelled as `List Char` and the extractor's multiline
regexes are rendered at character level: `\s` runs may cross newlines, `.`
never matches a newline, `^`/`$` (m flag) anchor at line boundaries, and the
`g`-flag exec loop resumes after each match.
-/

/-! ## JavaScript string primitives -/

/-- Whitespace class of the JavaScript `\s` regex escape and of
`String.prototype.trim` (ASCII part; the inputs at issue are ASCII). -/
def isJsWs (c : Char) : Bool :=
  c = ' ' || c = '\t' || c = '\n' || c = '\r' || c = '\x0b' || c = '\x0c'

/-- Drop a leading run of JavaScript whitespace (the regex `\s*`). -/
def dropWs (cs : List Char) : List Char :=
  cs.dropWhile isJsWs

/-- Drop a trailing run of JavaScript whitespace. -/
def trimRightJs (cs : List Char) : List Char :=
  (cs.reverse.dropWhile isJsWs).reverse

/-- `String.prototype.trim`: strip leading and trailing whitespace. -/
def jsTrim (cs : List Char) : List Char :=
  trimRightJs (dropWs cs)

/-- Split on `'\n'`, as the multiline anchors `^`/`$` delimit lines.
`splitLines [] = [[]]`, matching `"".split("\n") = [""]`. -/
def splitLines (cs : List Char) : List (List Char) :=
  cs.foldr
    (fun c acc =>
      if c = '\n' then [] :: acc
      else
        match acc with
        | [] => [[c]]
        | l :: ls => (c :: l) :: ls)
    [[]]

/-- Consume `pat` case-insensitively from the front of `cs` (the `i` regex
flag on a literal word), returning the remainder on success. -/
def stripCI : List Char → List Char → Option (List Char)
  | [], cs => some cs
  | _ :: _, [] => none
  | p :: ps, c :: cs => if c.toLower = p.toLower then stripCI ps cs else none

/-! ## The three strategy matchers of `extractAcceptanceCriteria`

Each renders one of the source regexes (gim flags) at character level,
applied at a line-start position of the text.  Multiline behavior is kept:
a `\s` run may cross newlines (JavaScript `\s` includes `'\n'`), `.` never
matches `'\n'`, and the greedy `(.+)$` captures from the first
non-whitespace character after the structural tokens to the end of that
line.  On success a matcher returns the raw capture together with the rest
of the text after the captured line (where the `g`-flag `lastIndex`
lands). -/

/-- The tail `\s*(.+)$` (or `\s+(.+)$` once one whitespace character has been
checked) of each strategy regex: skip the whitespace run — crossing newlines
— and capture greedily to the end of the line then reached.  When only
whitespace remains, the engine's backtracking can at best produce a
whitespace-only capture, which the collection loop discards and after which
no further match exists, so it is reported as no match. -/
def captureToEol (r : List Char) : Option (List Char × List Char) :=
  match dropWs r with
  | [] => none
  | c :: s =>
    some ((c :: s).takeWhile (fun ch => ¬ ch = '\n'),
      (c :: s).dropWhile (fun ch => ¬ ch = '\n'))

/-- Line 538: checkbox items, regex `^[\s]*[-*]\s*\[[ x]\]\s*(.+)$` (gim). -/
def checkboxMatchAt (cs : List Char) : Option (List Char × List Char) :=
  match dropWs cs with
  | c :: r =>
    if c = '-' ∨ c = '*' then
      match dropWs r with
      | c1 :: c2 :: c3 :: r5 =>
        if c1 = '[' ∧ (c2 = ' ' ∨ c2 = 'x' ∨ c2 = 'X') ∧ c3 = ']' then
          captureToEol r5
        else none
      | _ => none
    else none
  | [] => none

/-- Line 549: numbered items, regex `^[\s]*\d+[.)]\s*(.+)$` (gim). -/
def numberedMatchAt (cs : List Char) : Option (List Char × List Char) :=
  match dropWs cs |>.takeWhile Char.isDigit, dropWs cs |>.dropWhile Char.isDigit with
  | [], _ => none
  | _ :: _, c :: rest => if c = '.' ∨ c = ')' then captureToEol rest else none
  | _ :: _, [] => none

/-- Line 560: plain bullet items, regex `^[\s]*[-*]\s+(.+)$` (gim). -/
def bulletMatchAt (cs : List Char) : Option (List Char × List Char) :=
  match dropWs cs with
  | c :: r =>
    if c = '-' ∨ c = '*' then
      match r with
      | w :: _ => if isJsWs w then captureToEol r else none
      | [] => none
    else none
  | [] => none

/-- The `while ((match = regex.exec(text)))` loop with the `g` flag: attempt
a match at the current position (the `^` anchor is honoured because a
leading `[\s]*` from the previous line break reaches exactly the same
matches as from the following line start); on success collect the capture
and resume after the captured line, on failure resume at the next line
start.  Structured on fuel so that it computes by kernel reduction; every
step consumes at least one character, so fuel `text.length` never runs
out. -/
def execLoopF (matchAt : List Char → Option (List Char × List Char)) :
    Nat → List Char → List (List Char)
  | 0, _ => []
  | fuel + 1, cs =>
    match matchAt cs with
    | some (cap, rest) => cap :: execLoopF matchAt fuel rest
    | none =>
      match cs.dropWhile (fun c => ¬ c = '\n') with
      | [] => []
      | _ :: rest2 => execLoopF matchAt fuel rest2

/-- All captures of a strategy regex over a text, in match order. -/
def execLoop (matchAt : List Char → Option (List Char × List Char))
    (cs : List Char) : List (List Char) :=
  execLoopF matchAt cs.length cs

/-! ## Locating the "Acceptance Criteria" section

Line 532:
`/(?:^|\n)#{1,3}\s*acceptance\s*criteria\s*\n([\s\S]*?)(?=\n#{1,3}\s|\n\n\n|$)/i`
rendered at character level.  The heading's `\s*` runs may cross newlines;
the trailing `\s*\n` greedily absorbs the whitespace run after "criteria" up
to and including its last newline, so blank lines directly after the heading
belong to the heading match, not to the body. -/

/-- Attempt the heading part of the regex at a line-start position; on
success return the suffix at which the body capture begins.  Four or more
leading hashes cannot match, because only whitespace may stand between the
hashes and the word "acceptance"; a heading with no newline anywhere in the
whitespace after "criteria" fails. -/
def headingMatchAt (cs : List Char) : Option (List Char) :=
  if 1 ≤ (cs.takeWhile (· = '#')).length ∧ (cs.takeWhile (· = '#')).length ≤ 3 then
    match stripCI "acceptance".toList (dropWs (cs.dropWhile (· = '#'))) with
    | none => none
    | some r2 =>
      match stripCI "criteria".toList (dropWs r2) with
      | none => none
      | some r3 =>
        if '\n' ∈ r3.takeWhile isJsWs then
          some (((r3.takeWhile isJsWs).reverse.takeWhile (fun c => ¬ c = '\n')).reverse
            ++ r3.dropWhile isJsWs)
        else none
  else none

/-- Scan for the leftmost heading match: the `(?:^|\n)` anchor admits the
start of the text and every position directly after a newline. -/
def findACBodyAux : List Char → Option (List Char)
  | [] => none
  | c :: rest =>
    if c = '\n' then
      match headingMatchAt rest with
      | some b => some b
      | none => findACBodyAux rest
    else findACBodyAux rest

def findACBody (cs : List Char) : Option (List Char) :=
  match headingMatchAt cs with
  | some b => some b
  | none => findACBodyAux cs

/-- Does a lookahead alternative (short of end of text) match at this point
of the body?  `\n#{1,3}\s` needs one to three hashes followed by a
whitespace character — so a bare hash line at the very end of the text does
not terminate, and four or more hashes never do — and `\n\n\n` needs two
further newlines. -/
def bodyTermAtChars : List Char → Bool
  | [] => false
  | c :: r =>
    if c = '\n' then
      (if 1 ≤ (r.takeWhile (· = '#')).length ∧ (r.takeWhile (· = '#')).length ≤ 3 then
        match r.drop (r.takeWhile (· = '#')).length with
        | c2 :: _ => isJsWs c2
        | [] => false
      else false)
      ||
      (match r with
       | c2 :: c3 :: _ => if c2 = '\n' ∧ c3 = '\n' then true else false
       | _ => false)
    else false

/-- The lazy capture `([\s\S]*?)`: the body extends from its start position
until the first point where a lookahead alternative matches, or to the end
of the text. -/
def takeBodyChars : List Char → List Char
  | [] => []
  | c :: rest =>
    if bodyTermAtChars (c :: rest) = true then []
    else c :: takeBodyChars rest

/-- The matched section body (`acSectionMatch[1]`). -/
def acSectionChars (cs : List Char) : Option (List Char) :=
  (findACBody cs).map takeBodyChars

/-! ## The collection loop -/

/-- One pass of the source's `while ((match = regex.exec(...)))` loop body:
keep the criterion only if non-empty and not already collected
(`if (criterion && !criteria.includes(criterion)) criteria.push(criterion)`). -/
def collectAux : List (List Char) → List (List Char) → List (List Char)
  | acc, [] => acc
  | acc, c :: rest =>
    if c ≠ [] ∧ c ∉ acc then collectAux (acc ++ [c]) rest
    else collectAux acc rest

/-- Collect the matched criteria of a candidate list in order, dropping empty
strings and duplicates (first occurrence wins). -/
def collect (xs : List (List Char)) : List (List Char) :=
  collectAux [] xs

/-- Modelled from the spec's words: "duplicates removed (by exact string
equality, first occurrence wins), insertion order preserved" — keep each
non-empty entry, and strike every later duplicate of the head from the
deduplicated tail.  Stated independently of the source's accumulator loop
so the two can be compared. -/
def firstOccurrenceKeep : List (List Char) → List (List Char)
  | [] => []
  | c :: rest =>
    if c = [] then firstOccurrenceKeep rest
    else c :: (firstOccurrenceKeep rest).filter (fun d => ¬ d = c)

/-! ## `extractAcceptanceCriteria` (lines 524-570) -/

/-- The text the strategies scan: the acceptance-criteria section body if one
was found, else the whole input (`textToSearch`, line 535). -/
def searchTextOf (cs : List Char) : List Char :=
  (acSectionChars cs).getD cs

/-- `extractAcceptanceCriteria(description)`: `null`/`undefined` are `none`,
the string argument is its character list.  Each strategy's exec loop runs
over the search text, every capture is trimmed (`match[1].trim()`), and the
collection loop dedups.  Strategy cascade: checkboxes first; if none
collected, numbered items; if still none and a section was found, plain
bullets inside the section; otherwise the empty list. -/
def extractAcceptanceCriteria (description : Option (List Char)) : List (List Char) :=
  match description with
  | none => []
  | some cs =>
    if cs = [] then []
    else if collect ((execLoop checkboxMatchAt (searchTextOf cs)).map jsTrim) ≠ [] then
      collect ((execLoop checkboxMatchAt (searchTextOf cs)).map jsTrim)
    else if collect ((execLoop numberedMatchAt (searchTextOf cs)).map jsTrim) ≠ [] then
      collect ((execLoop numberedMatchAt (searchTextOf cs)).map jsTrim)
    else
      match acSectionChars cs with
      | some b => collect ((execLoop bulletMatchAt b).map jsTrim)
      | none => []

/-- The trimmed (pre-dedup) candidate stream of whichever strategy the
cascade settles on; `extractAcceptanceCriteria` is its `collect`. -/
def activeCandidates (description : Option (List Char)) : List (List Char) :=
  match description with
  | none => []
  | some cs =>
    if cs = [] then []
    else if collect ((execLoop checkboxMatchAt (searchTextOf cs)).map jsTrim) ≠ [] then
      (execLoop checkboxMatchAt (searchTextOf cs)).map jsTrim
    else if collect ((execLoop numberedMatchAt (searchTextOf cs)).map jsTrim) ≠ [] then
      (execLoop numberedMatchAt (searchTextOf cs)).map jsTrim
    else
      match acSectionChars cs with
      | some b => (execLoop bulletMatchAt b).map jsTrim
      | none => []

/-! ## Claim-text variants for C7

C7 asserts the body runs to the next heading of the *same or shallower*
marker depth than the section's own heading.  These definitions follow the
claim's words (not the source) so the two readings can be compared. -/

/-- Modelled from the claim's words: a heading line of depth at most `d`
(the depth of the acceptance-criteria heading). -/
def isTermHeadingLE (d : Nat) (l : List Char) : Bool :=
  let k := (l.takeWhile (· = '#')).length
  if 1 ≤ k ∧ k ≤ 3 ∧ k ≤ d then
    match l.drop k with
    | [] => true
    | c :: _ => isJsWs c
  else false

/-- Modelled from the claim's words: section body per C7 — only a heading of
the same or shallower depth than `d` (or two blank lines, or end of text)
ends it. -/
def takeBodyClaim (d : Nat) : List (List Char) → List (List Char)
  | [] => []
  | l :: rest =>
    if isTermHeadingLE d l then []
    else if l = [] ∧ rest.head? = some [] then []
    else l :: takeBodyClaim d rest

/-! ## `TestQueue` (src/src/types/index.ts, lines 114-210)

State machine over explicit events.  A `QueuedTask` entry carries its caller
id and a `serial` number standing for the distinct JavaScript object identity
of the queued record (the work closure, resolver pair and `queuedAt` stamp
are not needed for the scheduling claims).  The `running` map is modelled by
its key list: `Map.set` keeps an existing key in place, `Map.delete` removes
it. -/

structure QueuedTask where
  serial : Nat
  id : String
  deriving DecidableEq, Repr

structure TestQueue where
  queue : List QueuedTask
  running : List String
  maxConcurrent : Nat
  nextSerial : Nat
  deriving DecidableEq, Repr

/-- `this.running.set(id, ...)` on the key list. -/
def insertRunning (id : String) (r : List String) : List String :=
  if id ∈ r then r else r ++ [id]

/-- `processQueue` (lines 142-153): admit nothing when at capacity or the
line is empty; otherwise shift the head of the waiting line into the running
map.  Also returns the admitted task, for the statements below. -/
def TestQueue.processQueue (s : TestQueue) : Option QueuedTask × TestQueue :=
  if s.maxConcurrent ≤ s.running.length then (none, s)
  else
    match s.queue with
    | [] => (none, s)
    | t :: rest =>
      (some t, { s with queue := rest, running := insertRunning t.id s.running })

/-- The push of `enqueue` (lines 127-140): append to the waiting line. -/
def TestQueue.push (id : String) (s : TestQueue) : TestQueue :=
  { s with
    queue := s.queue ++ [⟨s.nextSerial, id⟩]
    nextSerial := s.nextSerial + 1 }

/-- The discrete scheduler steps: a submission (`enqueue` pushes, then runs
`processQueue`), or the settlement of a running task's work (the `finally`
block, lines 160-166: delete the id from the running map, then run
`processQueue`; identical for success and failure). -/
inductive QEvent
  | enq (id : String)
  | settle (id : String) (failed : Bool)
  deriving DecidableEq, Repr

/-- The state handed to `processQueue` by the step: `enqueue` first pushes,
the `finally` handler first deletes the settled id from the running map. -/
def TestQueue.preState (e : QEvent) (s : TestQueue) : TestQueue :=
  match e with
  | .enq id => TestQueue.push id s
  | .settle id _ => { s with running := s.running.erase id }

def TestQueue.step (e : QEvent) (s : TestQueue) : TestQueue :=
  (TestQueue.processQueue (TestQueue.preState e s)).2

/-- The task moved into the running set by this step, if any. -/
def TestQueue.admittedOf (e : QEvent) (s : TestQueue) : Option QueuedTask :=
  (TestQueue.processQueue (TestQueue.preState e s)).1

/-- A freshly constructed queue with ceiling `n` (constructor, lines 119-122). -/
def TestQueue.init (n : Nat) : TestQueue :=
  ⟨[], [], n, 0⟩

/-- Run a sequence of events from a state. -/
def TestQueue.run (evs : List QEvent) (s : TestQueue) : TestQueue :=
  evs.foldl (fun s e => TestQueue.step e s) s

/-- JavaScript `Array.prototype.findIndex`: index of the first element
satisfying `p`, or `-1`. -/
def findIndexJs (p : QueuedTask → Bool) : List QueuedTask → Int
  | [] => -1
  | t :: rest =>
    if p t then 0
    else if findIndexJs p rest = -1 then -1
    else findIndexJs p rest + 1

/-- `getPosition` (lines 205-209): 0 while running, 1-based waiting-line
position while queued, -1 otherwise. -/
def TestQueue.getPosition (s : TestQueue) (id : String) : Int :=
  if id ∈ s.running then 0
  else if findIndexJs (fun t => t.id == id) s.queue = -1 then -1
  else findIndexJs (fun t => t.id == id) s.queue + 1

/-- `isRunning` (lines 191-193). -/
def TestQueue.isRunning (s : TestQueue) (id : String) : Bool :=
  id ∈ s.running

/-- `isQueued` (lines 198-200). -/
def TestQueue.isQueued (s : TestQueue) (id : String) : Bool :=
  s.queue.any (fun t => t.id == id)

/-- Task A stands before task B in the waiting line (by serial number). -/
def precedes (a b : Nat) (q : List QueuedTask) : Prop :=
  List.Sublist [a, b] (q.map QueuedTask.serial)

/-- Well-formedness of the waiting line: serials strictly increase along the
line and stay below the next serial to be handed out.  Holds in every
reachable state. -/
def QueueWf (s : TestQueue) : Prop :=
  (s.queue.map QueuedTask.serial).Pairwise (· < ·)
    ∧ ∀ t ∈ s.queue, t.serial < s.nextSerial

/-! ## Settlement values (claim C4)

Lines 155-159:
```
const result = await nextTask.task();
nextTask.resolve(result);
} catch (error) {
nextTask.reject(error instanceof Error ? error : new Error(String(error)));
```
Failure values are arbitrary JavaScript values; successes are opaque. -/

inductive JSValue
  | error (message : String)
  | str (s : String)
  | num (n : Int)
  | boolean (b : Bool)
  | nullv
  | undef
  deriving DecidableEq, Repr

/-- The JavaScript `String(x)` conversion on the modelled values
(`String(new Error(m))` is `"Error: " ++ m`). -/
def jsString : JSValue → String
  | .error m => "Error: " ++ m
  | .str s => s
  | .num n => toString n
  | .boolean b => if b then "true" else "false"
  | .nullv => "null"
  | .undef => "undefined"

/-- `x instanceof Error`. -/
def JSValue.instanceofError : JSValue → Bool
  | .error _ => true
  | _ => false

/-- The value passed to `reject` on line 159. -/
def rejectValue (e : JSValue) : JSValue :=
  if e.instanceofError then e else .error (jsString e)

/-- How the promise returned by `enqueue` settles, as a function of the
work's outcome (lines 155-159). -/
def settleTask (outcome : Except JSValue JSValue) : Except JSValue JSValue :=
  match outcome with
  | .ok v => .ok v
  | .error e => .error (rejectValue e)

/-! ## Webhook dedup (`issueTests`, routes file lines 274-305, 336-343)

The coordinator of the spec: a record table keyed by issue id with statuses
queued/running/completed, consulted before any work is submitted to the
queue.  `submitted` records the ids handed to `testQueue.enqueue`. -/

inductive RunStatus
  | queued
  | running
  | completed
  deriving DecidableEq, Repr

structure CoordinatorState where
  records : List (String × RunStatus)
  submitted : List String
  deriving DecidableEq, Repr

/-- `Map.set` on the record table: replace in place or append. -/
def setRecord (id : String) (st : RunStatus) : List (String × RunStatus) → List (String × RunStatus)
  | [] => [(id, st)]
  | (k, v) :: rest =>
    if k = id then (id, st) :: rest else (k, v) :: setRecord id st rest

/-- The cleanup timer (lines 340-342): delete the record for `id`. -/
def purgeRecord (id : String) (recs : List (String × RunStatus)) : List (String × RunStatus) :=
  recs.filter (fun r => ¬ r.1 = id)

inductive AcceptOutcome
  | accepted
  | conflict (status : RunStatus)
  deriving DecidableEq, Repr

/-- The dedup fragment of `router.post("/linear")` (lines 274-305): reject
with 409 carrying the current status when a non-completed record exists;
otherwise record the run as queued and submit the work to the queue. -/
def acceptRun (id : String) (s : CoordinatorState) : AcceptOutcome × CoordinatorState :=
  match List.lookup id s.records with
  | some st =>
    if st = RunStatus.completed then
      (.accepted, ⟨setRecord id .queued s.records, s.submitted ++ [id]⟩)
    else (.conflict st, s)
  | none => (.accepted, ⟨setRecord id .queued s.records, s.submitted ++ [id]⟩)

/-- The task body marks the record running when admitted (line 305). -/
def markRunning (id : String) (s : CoordinatorState) : CoordinatorState :=
  { s with records := setRecord id .running s.records }

/-- The `finally` block marks the record completed (line 337). -/
def markCompleted (id : String) (s : CoordinatorState) : CoordinatorState :=
  { s with records := setRecord id .completed s.records }

/-! ## Library of facts about the collection loop and trimming -/

theorem dropWhile_fix_of_append (p : Char → Bool) (u t : List Char)
    (h : List.dropWhile p (u ++ t) = u ++ t) : List.dropWhile p u = u := by
  cases u with
  | nil => simp
  | cons c u' =>
    rw [List.cons_append, List.dropWhile_cons] at h
    by_cases hc : p c = true
    · exfalso
      rw [if_pos hc] at h
      have hlen := congrArg List.length (List.takeWhile_append_dropWhile p (u' ++ t))
      have hlen2 := congrArg List.length h
      simp only [List.length_append, List.length_cons] at hlen hlen2
      omega
    · rw [if_neg hc] at h
      rw [List.dropWhile_cons, if_neg hc]

theorem trimRightJs_append (x : List Char) :
    trimRightJs x ++ (List.takeWhile isJsWs x.reverse).reverse = x := by
  rw [trimRightJs, ← List.reverse_append, List.takeWhile_append_dropWhile,
    List.reverse_reverse]

theorem dropWs_trimRightJs_fix (x : List Char) (h : dropWs x = x) :
    dropWs (trimRightJs x) = trimRightJs x := by
  apply dropWhile_fix_of_append isJsWs _ (List.takeWhile isJsWs x.reverse).reverse
  rw [trimRightJs_append]
  exact h

theorem trimRightJs_idem (x : List Char) :
    trimRightJs (trimRightJs x) = trimRightJs x := by
  rw [trimRightJs, trimRightJs, List.reverse_reverse, List.dropWhile_idempotent]

/-- JavaScript trim is idempotent. -/
theorem jsTrim_idem (l : List Char) : jsTrim (jsTrim l) = jsTrim l := by
  rw [jsTrim, jsTrim]
  rw [dropWs_trimRightJs_fix (dropWs l) (List.dropWhile_idempotent isJsWs l)]
  exact trimRightJs_idem (dropWs l)

theorem collectAux_eq_append (xs : List (List Char)) :
    ∀ acc, ∃ t, collectAux acc xs = acc ++ t ∧ List.Sublist t xs := by
  induction xs with
  | nil => exact fun acc => ⟨[], by simp [collectAux], List.nil_sublist _⟩
  | cons c rest ih =>
    intro acc
    rw [collectAux]
    by_cases h : c ≠ [] ∧ c ∉ acc
    · rw [if_pos h]
      obtain ⟨t, ht, hs⟩ := ih (acc ++ [c])
      exact ⟨c :: t, by rw [ht]; simp, List.Sublist.cons₂ c hs⟩
    · rw [if_neg h]
      obtain ⟨t, ht, hs⟩ := ih acc
      exact ⟨t, ht, List.Sublist.cons c hs⟩

theorem collect_sublist (xs : List (List Char)) : List.Sublist (collect xs) xs := by
  obtain ⟨t, ht, hs⟩ := collectAux_eq_append xs []
  rw [collect, ht]
  simpa using hs

theorem collectAux_nodup (xs : List (List Char)) :
    ∀ acc, acc.Nodup → (collectAux acc xs).Nodup := by
  induction xs with
  | nil => intro acc h; simpa [collectAux] using h
  | cons c rest ih =>
    intro acc h
    rw [collectAux]
    by_cases hc : c ≠ [] ∧ c ∉ acc
    · rw [if_pos hc]
      refine ih (acc ++ [c]) ?_
      rw [List.nodup_append]
      refine ⟨h, List.nodup_singleton c, ?_⟩
      intro a ha hb
      rw [List.mem_singleton] at hb
      subst hb
      exact hc.2 ha
    · rw [if_neg hc]
      exact ih acc h

theorem collect_nodup (xs : List (List Char)) : (collect xs).Nodup :=
  collectAux_nodup xs [] List.nodup_nil

theorem collectAux_mem (xs : List (List Char)) :
    ∀ acc c, c ∈ collectAux acc xs → c ∈ acc ∨ (c ∈ xs ∧ c ≠ []) := by
  induction xs with
  | nil => intro acc c h; rw [collectAux] at h; exact Or.inl h
  | cons d rest ih =>
    intro acc c h
    rw [collectAux] at h
    by_cases hd : d ≠ [] ∧ d ∉ acc
    · rw [if_pos hd] at h
      rcases ih (acc ++ [d]) c h with h' | h'
      · rcases List.mem_append.mp h' with h'' | h''
        · exact Or.inl h''
        · have : c = d := by simpa using h''
          exact Or.inr ⟨by simp [this], by rw [this]; exact hd.1⟩
      · exact Or.inr ⟨List.mem_cons_of_mem d h'.1, h'.2⟩
    · rw [if_neg hd] at h
      rcases ih acc c h with h' | h'
      · exact Or.inl h'
      · exact Or.inr ⟨List.mem_cons_of_mem d h'.1, h'.2⟩

theorem collect_mem {xs c} (h : c ∈ collect xs) : c ∈ xs ∧ c ≠ [] := by
  rcases collectAux_mem xs [] c h with h' | h'
  · simp at h'
  · exact h'

theorem collectAux_ne_nil (xs : List (List Char)) :
    ∀ acc c, c ∈ xs → c ≠ [] → collectAux acc xs ≠ [] := by
  induction xs with
  | nil => intro acc c h; simp at h
  | cons d rest ih =>
    intro acc c hc hne
    rw [collectAux]
    by_cases hd : d ≠ [] ∧ d ∉ acc
    · rw [if_pos hd]
      obtain ⟨t, ht, _⟩ := collectAux_eq_append rest (acc ++ [d])
      rw [ht]
      simp
    · rw [if_neg hd]
      rcases List.mem_cons.mp hc with rfl | hmem
      · push_neg at hd
        have hcacc : c ∈ acc := hd hne
        obtain ⟨t, ht, _⟩ := collectAux_eq_append rest acc
        rw [ht]
        intro hnil
        rw [List.append_eq_nil] at hnil
        rw [hnil.1] at hcacc
        exact List.not_mem_nil c hcacc
      · exact ih acc c hmem hne

theorem collect_ne_nil {xs c} (hc : c ∈ xs) (hne : c ≠ []) : collect xs ≠ [] :=
  collectAux_ne_nil xs [] c hc hne


/-- C10: inside a recognized acceptance-criteria section, a bullet line
consisting of only a bare empty checkbox token is skipped by the checkbox
strategy (its criterion text is empty) and captured by the plain-bullet
fallback with the token as text. -/
theorem c10_bare_checkbox_token :
    extractAcceptanceCriteria (some "## Acceptance Criteria\n- [ ]".toList)
      = ["[ ]".toList] := by
  decide

/-! ## Library of facts about the queue state machine -/

theorem mem_insertRunning {a b : String} {r : List String} :
    a ∈ insertRunning b r ↔ a ∈ r ∨ a = b := by
  rw [insertRunning]
  split
  next hb =>
    constructor
    · exact Or.inl
    · rintro (h | rfl)
      · exact h
      · exact hb
  next hb => simp

/-- Exhaustive description of one `processQueue` call: either nothing is
admitted and the state is unchanged (at capacity, or empty line), or the
head of the waiting line moves into the running map. -/
theorem processQueue_cases (s : TestQueue) :
    ((TestQueue.processQueue s).1 = none ∧ (TestQueue.processQueue s).2 = s
      ∧ (s.maxConcurrent ≤ s.running.length ∨ s.queue = []))
    ∨ ∃ t rest, s.queue = t :: rest ∧ s.running.length < s.maxConcurrent
        ∧ TestQueue.processQueue s
            = (some t, { s with queue := rest, running := insertRunning t.id s.running }) := by
  rw [TestQueue.processQueue]
  by_cases hc : s.maxConcurrent ≤ s.running.length
  · rw [if_pos hc]
    exact Or.inl ⟨rfl, rfl, Or.inl hc⟩
  · rw [if_neg hc]
    cases hq : s.queue with
    | nil => exact Or.inl ⟨rfl, rfl, Or.inr rfl⟩
    | cons t rest =>
      exact Or.inr ⟨t, rest, rfl, Nat.lt_of_not_le hc, rfl⟩

theorem processQueue_admitted_eq {s : TestQueue} {t : QueuedTask}
    (h : (TestQueue.processQueue s).1 = some t) :
    ∃ rest, s.queue = t :: rest ∧ s.running.length < s.maxConcurrent
      ∧ (TestQueue.processQueue s).2
          = { s with queue := rest, running := insertRunning t.id s.running } := by
  rcases processQueue_cases s with ⟨h1, _, _⟩ | ⟨t', rest, hq, hlt, heq⟩
  · rw [h1] at h
    cases h
  · rw [heq] at h
    obtain rfl : t' = t := Option.some.inj h
    exact ⟨rest, hq, hlt, by rw [heq]⟩

theorem processQueue_none_state {s : TestQueue}
    (h : (TestQueue.processQueue s).1 = none) : (TestQueue.processQueue s).2 = s := by
  rcases processQueue_cases s with ⟨_, h2, _⟩ | ⟨t, rest, _, _, heq⟩
  · exact h2
  · rw [heq] at h
    cases h

theorem processQueue_running_le {s : TestQueue}
    (h : s.running.length ≤ s.maxConcurrent) :
    (TestQueue.processQueue s).2.running.length ≤ s.maxConcurrent := by
  rcases processQueue_cases s with ⟨_, h2, _⟩ | ⟨t, rest, _, hlt, heq⟩
  · rw [h2]
    exact h
  · rw [heq]
    show (insertRunning t.id s.running).length ≤ s.maxConcurrent
    rw [insertRunning]
    split
    · exact h
    · rw [List.length_append, List.length_singleton]
      omega

theorem processQueue_max (s : TestQueue) :
    (TestQueue.processQueue s).2.maxConcurrent = s.maxConcurrent := by
  rcases processQueue_cases s with ⟨_, h2, _⟩ | ⟨t, rest, _, _, heq⟩
  · rw [h2]
  · rw [heq]

theorem preState_running_le {e : QEvent} {s : TestQueue}
    (h : s.running.length ≤ s.maxConcurrent) :
    (TestQueue.preState e s).running.length ≤ (TestQueue.preState e s).maxConcurrent := by
  cases e with
  | enq id => exact h
  | settle id f =>
    show (s.running.erase id).length ≤ s.maxConcurrent
    exact le_trans (List.Sublist.length_le (List.erase_sublist id s.running)) h

theorem step_max (e : QEvent) (s : TestQueue) :
    (TestQueue.step e s).maxConcurrent = s.maxConcurrent := by
  rw [TestQueue.step, processQueue_max]
  cases e <;> rfl

theorem step_running_le {e : QEvent} {s : TestQueue}
    (h : s.running.length ≤ s.maxConcurrent) :
    (TestQueue.step e s).running.length ≤ (TestQueue.step e s).maxConcurrent := by
  have h2 := processQueue_running_le (preState_running_le (e := e) h)
  have h3 : (TestQueue.step e s).maxConcurrent = (TestQueue.preState e s).maxConcurrent := by
    rw [TestQueue.step, processQueue_max]
  rw [h3]
  exact h2

theorem run_running_le (evs : List QEvent) :
    ∀ s : TestQueue, s.running.length ≤ s.maxConcurrent →
      (TestQueue.run evs s).running.length ≤ (TestQueue.run evs s).maxConcurrent := by
  induction evs with
  | nil => exact fun s h => h
  | cons e rest ih => exact fun s h => ih (TestQueue.step e s) (step_running_le h)

theorem run_max (evs : List QEvent) :
    ∀ s : TestQueue, (TestQueue.run evs s).maxConcurrent = s.maxConcurrent := by
  induction evs with
  | nil => exact fun s => rfl
  | cons e rest ih =>
    intro s
    have h1 : TestQueue.run (e :: rest) s = TestQueue.run rest (TestQueue.step e s) := rfl
    rw [h1, ih, step_max]

/-! ## Claim theorems: queue -/

/-- C1: for every ceiling `N ≥ 1` fixed at construction and every sequence
of enqueue and settlement steps, the running set never holds more than `N`
tasks; and a submission arriving at capacity is appended to the waiting line
with the running set untouched. -/
theorem c1_concurrency_bounded (N : Nat) (_hN : 1 ≤ N) :
    (∀ evs : List QEvent,
        ((TestQueue.run evs (TestQueue.init N)).running).length ≤ N)
    ∧ (∀ (s : TestQueue) (id : String), s.maxConcurrent ≤ s.running.length →
        (TestQueue.step (.enq id) s).running = s.running
          ∧ (TestQueue.step (.enq id) s).queue
              = s.queue ++ [⟨s.nextSerial, id⟩]) := by
  constructor
  · intro evs
    have h := run_running_le evs (TestQueue.init N) (by simp [TestQueue.init])
    rw [run_max evs (TestQueue.init N)] at h
    exact h
  · intro s id hcap
    have hpre : TestQueue.preState (.enq id) s = TestQueue.push id s := rfl
    have hnone : (TestQueue.processQueue (TestQueue.push id s)).1 = none := by
      rcases processQueue_cases (TestQueue.push id s) with ⟨h1, _, _⟩ | ⟨t, rest, _, hlt, _⟩
      · exact h1
      · exfalso
        have hlt' : s.running.length < s.maxConcurrent := hlt
        omega
    have hst : TestQueue.step (.enq id) s = TestQueue.push id s := by
      rw [TestQueue.step, hpre, processQueue_none_state hnone]
    rw [hst]
    exact ⟨rfl, rfl⟩

theorem c1_witness :
    ((TestQueue.run [QEvent.enq "a", QEvent.enq "b", QEvent.enq "c"]
        (TestQueue.init 1)).running).length ≤ 1 :=
  (c1_concurrency_bounded 1 (by decide)).1 [QEvent.enq "a", QEvent.enq "b", QEvent.enq "c"]

theorem wf_push {s : TestQueue} (id : String) (h : QueueWf s) :
    QueueWf (TestQueue.push id s) := by
  obtain ⟨hp, hb⟩ := h
  constructor
  · show ((s.queue ++ [(⟨s.nextSerial, id⟩ : QueuedTask)]).map QueuedTask.serial).Pairwise (· < ·)
    rw [List.map_append, List.pairwise_append]
    refine ⟨hp, List.pairwise_singleton _ _, ?_⟩
    intro x hx y hy
    rw [List.mem_map] at hx
    obtain ⟨t, ht, rfl⟩ := hx
    rw [List.map_singleton, List.mem_singleton] at hy
    subst hy
    exact hb t ht
  · intro t ht
    show t.serial < s.nextSerial + 1
    rcases List.mem_append.mp ht with h' | h'
    · exact Nat.lt_succ_of_lt (hb t h')
    · rw [List.mem_singleton] at h'
      subst h'
      exact Nat.lt_succ_self _

theorem wf_processQueue {s : TestQueue} (h : QueueWf s) :
    QueueWf (TestQueue.processQueue s).2 := by
  rcases processQueue_cases s with ⟨_, h2, _⟩ | ⟨t, rest, hq, _, heq⟩
  · rw [h2]
    exact h
  · rw [heq]
    obtain ⟨hp, hb⟩ := h
    constructor
    · show (rest.map QueuedTask.serial).Pairwise (· < ·)
      rw [hq, List.map_cons] at hp
      exact (List.pairwise_cons.mp hp).2
    · intro t' ht'
      show t'.serial < s.nextSerial
      exact hb t' (by rw [hq]; exact List.mem_cons_of_mem t ht')

theorem wf_step (e : QEvent) {s : TestQueue} (h : QueueWf s) :
    QueueWf (TestQueue.step e s) := by
  rw [TestQueue.step]
  apply wf_processQueue
  cases e with
  | enq id => exact wf_push id h
  | settle id f => exact h

theorem run_wf (evs : List QEvent) :
    ∀ s : TestQueue, QueueWf s → QueueWf (TestQueue.run evs s) := by
  induction evs with
  | nil => exact fun s h => h
  | cons e rest ih => exact fun s h => ih _ (wf_step e h)

/-- C2: waiting tasks are admitted in strict arrival (FIFO) order.  Every
reachable state is well formed (serials strictly increase along the waiting
line); in a well-formed state, if task A stands before task B in the waiting
line, then no step admits B, and as long as A is not the one admitted their
relative order in the line is preserved.  Thus B never enters the running
set before A. -/
theorem c2_fifo_admission :
    (∀ (N : Nat) (evs : List QEvent), QueueWf (TestQueue.run evs (TestQueue.init N)))
    ∧ ∀ (s : TestQueue) (e : QEvent) (a b : Nat),
        (s.queue.map QueuedTask.serial).Nodup →
        a ≠ b → precedes a b s.queue →
          (∀ t, TestQueue.admittedOf e s = some t → t.serial ≠ b)
          ∧ ((∀ t, TestQueue.admittedOf e s = some t → t.serial ≠ a) →
              precedes a b (TestQueue.step e s).queue) := by
  constructor
  · intro N evs
    exact run_wf evs (TestQueue.init N)
      (And.intro List.Pairwise.nil (fun t ht => absurd ht (List.not_mem_nil t)))
  · intro s e a b hnd hne hab
    simp only [precedes] at hab
    have hqne : s.queue ≠ [] := by
      intro h0
      rw [h0] at hab
      simp at hab
    obtain ⟨q0, qrest, hq0⟩ := List.exists_cons_of_ne_nil hqne
    have hpq : ∃ extra, (TestQueue.preState e s).queue = (q0 :: qrest) ++ extra := by
      cases e with
      | enq id =>
        refine ⟨[⟨s.nextSerial, id⟩], ?_⟩
        show s.queue ++ [⟨s.nextSerial, id⟩] = (q0 :: qrest) ++ [⟨s.nextSerial, id⟩]
        rw [hq0]
      | settle id f =>
        refine ⟨[], ?_⟩
        show s.queue = (q0 :: qrest) ++ []
        rw [hq0, List.append_nil]
    obtain ⟨extra, hpqe⟩ := hpq
    have hadm : ∀ t, TestQueue.admittedOf e s = some t →
        t = q0 ∧ (TestQueue.step e s).queue = qrest ++ extra := by
      intro t ht
      rw [TestQueue.admittedOf] at ht
      obtain ⟨rest', hq', _, h2⟩ := processQueue_admitted_eq ht
      rw [hpqe, List.cons_append] at hq'
      injection hq' with h3 h4
      refine ⟨h3.symm, ?_⟩
      rw [TestQueue.step, h2]
      show rest' = qrest ++ extra
      exact h4.symm
    constructor
    · intro t ht hb
      obtain ⟨rfl, _⟩ := hadm t ht
      rw [hq0, List.map_cons, hb] at hab
      rw [hq0, List.map_cons, hb] at hnd
      rcases List.sublist_cons_iff.mp hab with h | ⟨r, hr, _⟩
      · have hbmem : b ∈ qrest.map QueuedTask.serial := h.subset (by simp)
        exact (List.nodup_cons.mp hnd).1 hbmem
      · injection hr with h5 _
        exact hne h5
    · intro hnota
      simp only [precedes]
      cases hadmval : TestQueue.admittedOf e s with
      | none =>
        have h1 : (TestQueue.processQueue (TestQueue.preState e s)).1 = none := hadmval
        have h3 : (TestQueue.step e s).queue = (TestQueue.preState e s).queue := by
          rw [TestQueue.step, processQueue_none_state h1]
        rw [h3, hpqe]
        rw [List.map_append]
        refine List.Sublist.trans ?_ (List.sublist_append_left _ _)
        rw [hq0] at hab
        exact hab
      | some t =>
        obtain ⟨rfl, hq'⟩ := hadm t hadmval
        have hta : t.serial ≠ a := hnota t hadmval
        rw [hq']
        rw [hq0, List.map_cons] at hab
        rw [List.map_append]
        refine List.Sublist.trans ?_ (List.sublist_append_left _ _)
        rcases List.sublist_cons_iff.mp hab with h | ⟨r, hr, _⟩
        · exact h
        · injection hr with h5 _
          exact absurd h5.symm hta

theorem c2_witness :
    (⟨0, "x"⟩ : QueuedTask).serial ≠ 1 :=
  ((c2_fifo_admission.2 ⟨[⟨0, "x"⟩, ⟨1, "y"⟩], [], 1, 2⟩ (QEvent.enq "w") 0 1
      (by decide) (by decide) (List.Sublist.refl _)).1) ⟨0, "x"⟩ (by decide)

theorem findIndexJs_of_forall_not (p : QueuedTask → Bool) :
    ∀ l : List QueuedTask, (∀ t ∈ l, p t = false) → findIndexJs p l = -1 := by
  intro l
  induction l with
  | nil => intro _; rfl
  | cons t rest ih =>
    intro h
    rw [findIndexJs]
    rw [if_neg (by rw [h t (List.mem_cons_self t rest)]; simp)]
    rw [ih (fun t' ht' => h t' (List.mem_cons_of_mem t ht')), if_pos rfl]

theorem findIndexJs_first (p : QueuedTask → Bool) :
    ∀ (l : List QueuedTask) (i : Nat) (hi : i < l.length),
      p (l.get ⟨i, hi⟩) = true →
      (∀ (j : Nat) (hj : j < i), p (l.get ⟨j, Nat.lt_trans hj hi⟩) = false) →
      findIndexJs p l = (i : Int) := by
  intro l
  induction l with
  | nil => intro i hi; simp at hi
  | cons t rest ih =>
    intro i hi hp hfirst
    match i with
    | 0 =>
      rw [findIndexJs, if_pos (show p t = true from hp)]
      rfl
    | j + 1 =>
      have hpt : p t = false := hfirst 0 (Nat.succ_pos j)
      rw [findIndexJs, if_neg (by rw [hpt]; simp)]
      have hj' : j < rest.length := Nat.lt_of_succ_lt_succ hi
      have hrec : findIndexJs p rest = (j : Int) := by
        refine ih j hj' ?_ ?_
        · exact hp
        · intro k hk
          exact hfirst (k + 1) (Nat.succ_lt_succ hk)
      rw [hrec, if_neg (by omega)]
      omega

/-- C3: `getPosition` returns 0 when the id is in the running set, the
1-based index of its first occurrence in the waiting line when it waits
without running, and -1 when it is neither; after a settlement of an id with
no waiting duplicate, the id is gone from all bookkeeping and `getPosition`
returns -1. -/
theorem c3_getPosition (s : TestQueue) (id : String) (v : Bool) :
    (id ∈ s.running → TestQueue.getPosition s id = 0)
    ∧ (id ∉ s.running →
        ∀ (i : Nat) (hi : i < s.queue.length),
          (s.queue.get ⟨i, hi⟩).id = id →
          (∀ (j : Nat) (hj : j < i), (s.queue.get ⟨j, Nat.lt_trans hj hi⟩).id ≠ id) →
          TestQueue.getPosition s id = (i : Int) + 1 ∧ 1 ≤ (i : Int) + 1)
    ∧ (id ∉ s.running → (∀ t ∈ s.queue, t.id ≠ id) →
        TestQueue.getPosition s id = -1)
    ∧ (s.running.Nodup → (∀ t ∈ s.queue, t.id ≠ id) →
        TestQueue.getPosition (TestQueue.step (.settle id v) s) id = -1) := by
  refine ⟨?_, ?_, ?_, ?_⟩
  · intro h
    rw [TestQueue.getPosition, if_pos h]
  · intro hnr i hi hp hfirst
    have hfi : findIndexJs (fun t => t.id == id) s.queue = (i : Int) := by
      refine findIndexJs_first _ s.queue i hi ?_ ?_
      · show ((s.queue.get ⟨i, hi⟩).id == id) = true
        rw [beq_iff_eq]
        exact hp
      · intro j hj
        show ((s.queue.get ⟨j, Nat.lt_trans hj hi⟩).id == id) = false
        rw [beq_eq_false_iff_ne]
        exact hfirst j hj
    rw [TestQueue.getPosition, if_neg hnr, hfi, if_neg (by omega)]
    exact ⟨rfl, by omega⟩
  · intro hnr hall
    have hfi : findIndexJs (fun t => t.id == id) s.queue = -1 := by
      refine findIndexJs_of_forall_not _ s.queue ?_
      intro t ht
      show (t.id == id) = false
      rw [beq_eq_false_iff_ne]
      exact hall t ht
    rw [TestQueue.getPosition, if_neg hnr, hfi, if_pos rfl]
  · intro hnd hall
    have hstep : TestQueue.step (QEvent.settle id v) s
        = (TestQueue.processQueue { s with running := s.running.erase id }).2 := rfl
    rcases processQueue_cases { s with running := s.running.erase id } with
      ⟨_, h2, _⟩ | ⟨t, rest, hq, _, heq⟩
    · have hrun : (TestQueue.step (QEvent.settle id v) s).running = s.running.erase id := by
        rw [hstep, h2]
      have hque : (TestQueue.step (QEvent.settle id v) s).queue = s.queue := by
        rw [hstep, h2]
      rw [TestQueue.getPosition, hrun, hque, if_neg hnd.not_mem_erase]
      rw [findIndexJs_of_forall_not _ s.queue
        (fun t ht => by rw [beq_eq_false_iff_ne]; exact hall t ht), if_pos rfl]
    · have hq' : s.queue = t :: rest := hq
      have hrun : (TestQueue.step (QEvent.settle id v) s).running
          = insertRunning t.id (s.running.erase id) := by
        rw [hstep, heq]
      have hque : (TestQueue.step (QEvent.settle id v) s).queue = rest := by
        rw [hstep, heq]
      have htid : t.id ≠ id := hall t (by rw [hq']; exact List.mem_cons_self t rest)
      have hnotin2 : id ∉ insertRunning t.id (s.running.erase id) := by
        intro hmem
        rcases mem_insertRunning.mp hmem with h | h
        · exact hnd.not_mem_erase h
        · exact htid h.symm
      rw [TestQueue.getPosition, hrun, hque, if_neg hnotin2]
      rw [findIndexJs_of_forall_not _ rest
        (fun t' ht' => by
          rw [beq_eq_false_iff_ne]
          exact hall t' (by rw [hq']; exact List.mem_cons_of_mem t ht')), if_pos rfl]

theorem c3_witness :
    TestQueue.getPosition ⟨[⟨0, "b"⟩], ["a"], 2, 1⟩ "a" = 0 :=
  (c3_getPosition ⟨[⟨0, "b"⟩], ["a"], 2, 1⟩ "a" false).1 (by decide)

/-! ## Claim theorems: settlement values and the webhook dedup -/

/-- C4 is false as stated: line 159 wraps a non-Error failure value in
`new Error(String(error))`, so the promise does not settle with the same
failure value for every possible failure value.  The string `"boom"` is
replaced by an Error object carrying `"boom"` as its message. -/
theorem c4_counterexample :
    settleTask (Except.error (JSValue.str "boom"))
        = Except.error (JSValue.error "boom")
    ∧ (Except.error (JSValue.error "boom") : Except JSValue JSValue)
        ≠ Except.error (JSValue.str "boom") := by
  refine ⟨rfl, ?_⟩
  intro h
  injection h with h'
  cases h'

/-- C4 (amended): a failure value that is an Error instance passes through
the queue verbatim; a non-Error failure value is wrapped in an Error whose
message is its String conversion; a success value passes through verbatim. -/
theorem c4_failure_passthrough (e : JSValue) :
    (e.instanceofError = true → settleTask (Except.error e) = Except.error e)
    ∧ (e.instanceofError = false →
        settleTask (Except.error e) = Except.error (JSValue.error (jsString e)))
    ∧ ∀ v : JSValue, settleTask (Except.ok v) = Except.ok v := by
  refine ⟨?_, ?_, fun v => rfl⟩
  · intro h
    rw [settleTask, rejectValue, if_pos h]
  · intro h
    rw [settleTask, rejectValue, if_neg (by rw [h]; simp)]

theorem c4_witness :
    settleTask (Except.error (JSValue.error "x")) = Except.error (JSValue.error "x")
    ∧ settleTask (Except.error (JSValue.str "y"))
        = Except.error (JSValue.error "y") :=
  ⟨(c4_failure_passthrough (JSValue.error "x")).1 rfl,
   (c4_failure_passthrough (JSValue.str "y")).2.1 rfl⟩

/-- C5: settlement of a failed task is the same state transition as
settlement of a successful one; it removes the id from the running set, and
when the waiting line is non-empty (and carries no duplicate of the settled
id at its head) the head task is admitted into the running set, the rest
staying queued.  A failing task therefore never blocks the queue. -/
theorem c5_failure_never_blocks (s : TestQueue) (id : String) (v : Bool)
    (hmem : id ∈ s.running) (hnd : s.running.Nodup)
    (hcap : s.running.length ≤ s.maxConcurrent)
    (t : QueuedTask) (rest : List QueuedTask) (hq : s.queue = t :: rest)
    (hid : t.id ≠ id) :
    TestQueue.step (.settle id true) s = TestQueue.step (.settle id false) s
    ∧ id ∉ (TestQueue.step (.settle id v) s).running
    ∧ t.id ∈ (TestQueue.step (.settle id v) s).running
    ∧ (TestQueue.step (.settle id v) s).queue = rest := by
  have hlen : (s.running.erase id).length = s.running.length - 1 :=
    List.length_erase_of_mem hmem
  have hpos : 0 < s.running.length := List.length_pos_of_mem hmem
  have hstep : TestQueue.step (QEvent.settle id v) s
      = (TestQueue.processQueue { s with running := s.running.erase id }).2 := rfl
  rcases processQueue_cases { s with running := s.running.erase id } with
    ⟨_, _, hor⟩ | ⟨t', rest', hq', _, heq⟩
  · exfalso
    rcases hor with h | h
    · have h' : s.maxConcurrent ≤ (s.running.erase id).length := h
      omega
    · have h' : s.queue = [] := h
      rw [hq] at h'
      exact List.cons_ne_nil t rest h'
  · have hq'' : s.queue = t' :: rest' := hq'
    rw [hq] at hq''
    injection hq'' with h1 h2
    subst h1
    subst h2
    have hrun : (TestQueue.step (QEvent.settle id v) s).running
        = insertRunning t.id (s.running.erase id) := by
      rw [hstep, heq]
    have hque : (TestQueue.step (QEvent.settle id v) s).queue = rest := by
      rw [hstep, heq]
    refine ⟨rfl, ?_, ?_, hque⟩
    · rw [hrun]
      intro hmem2
      rcases mem_insertRunning.mp hmem2 with h | h
      · exact hnd.not_mem_erase h
      · exact hid h.symm
    · rw [hrun]
      exact mem_insertRunning.mpr (Or.inr rfl)

theorem c5_witness :
    (TestQueue.step (.settle "a" true) ⟨[⟨1, "b"⟩], ["a"], 1, 2⟩).queue = [] :=
  (c5_failure_never_blocks ⟨[⟨1, "b"⟩], ["a"], 1, 2⟩ "a" true
    (by decide) (by decide) (by decide) ⟨1, "b"⟩ [] rfl (by decide)).2.2.2

theorem lookup_purgeRecord (id : String) (recs : List (String × RunStatus)) :
    List.lookup id (purgeRecord id recs) = none := by
  induction recs with
  | nil => rfl
  | cons p rest ih =>
    obtain ⟨k, v⟩ := p
    by_cases hk : k = id
    · rw [purgeRecord, List.filter_cons]
      rw [if_neg (by simp [hk])]
      exact ih
    · rw [purgeRecord, List.filter_cons]
      rw [if_pos (by simp [hk])]
      rw [List.lookup_cons]
      have : (id == k) = false := by
        rw [beq_eq_false_iff_ne]
        exact fun h => hk h.symm
      rw [this]
      exact ih

/-- C9: the webhook dedup rejects a run request for an issue id whose record
exists with a non-completed status, returning a conflict carrying that
status and submitting nothing to the queue; once the record is completed or
purged, a new request is accepted, recorded as queued, and its work is
submitted. -/
theorem c9_dedup (s : CoordinatorState) (id : String) (st : RunStatus) :
    (List.lookup id s.records = some st → st ≠ RunStatus.completed →
        acceptRun id s = (.conflict st, s))
    ∧ (List.lookup id s.records = some RunStatus.completed →
        acceptRun id s
          = (.accepted, ⟨setRecord id .queued s.records, s.submitted ++ [id]⟩))
    ∧ (List.lookup id s.records = none →
        acceptRun id s
          = (.accepted, ⟨setRecord id .queued s.records, s.submitted ++ [id]⟩))
    ∧ List.lookup id (purgeRecord id s.records) = none := by
  refine ⟨?_, ?_, ?_, lookup_purgeRecord id s.records⟩
  · intro h hne
    simp only [acceptRun, h]
    rw [if_neg hne]
  · intro h
    simp only [acceptRun, h]
    simp
  · intro h
    simp only [acceptRun, h]

theorem c9_witness :
    acceptRun "T1" ⟨[("T1", RunStatus.running)], []⟩
      = (.conflict RunStatus.running, ⟨[("T1", RunStatus.running)], []⟩) :=
  (c9_dedup ⟨[("T1", RunStatus.running)], []⟩ "T1" RunStatus.running).1
    (by decide) (by decide)

/-! ## The collection loop is the spec's first-occurrence dedup -/

theorem collectAux_eq_firstOccurrenceKeep (xs : List (List Char)) :
    ∀ acc, collectAux acc xs
      = acc ++ (firstOccurrenceKeep xs).filter (fun d => d ∉ acc) := by
  induction xs with
  | nil => intro acc; simp [collectAux, firstOccurrenceKeep]
  | cons c rest ih =>
    intro acc
    rw [collectAux]
    by_cases hc : c ≠ [] ∧ c ∉ acc
    · rw [if_pos hc, ih (acc ++ [c])]
      rw [firstOccurrenceKeep, if_neg hc.1]
      rw [List.filter_cons, if_pos (by simp [hc.2]), List.filter_filter]
      rw [List.append_assoc, List.singleton_append]
      congr 2
      apply List.filter_congr
      intro d _
      by_cases hdc : d = c
      · subst hdc
        simp
      · by_cases hdacc : d ∈ acc
        · simp [hdc, hdacc]
        · simp [hdc, hdacc]
    · rw [if_neg hc, ih acc]
      congr 1
      push_neg at hc
      by_cases hce : c = []
      · subst hce
        rw [firstOccurrenceKeep, if_pos rfl]
      · have hmem : c ∈ acc := hc hce
        rw [firstOccurrenceKeep, if_neg hce]
        rw [List.filter_cons, if_neg (by simp [hmem]), List.filter_filter]
        apply List.filter_congr
        intro d _
        by_cases hdc : d = c
        · subst hdc
          simp [hmem]
        · simp [hdc]

/-- The source's accumulator loop computes exactly the spec's
"first occurrence wins, insertion order preserved" deduplication. -/
theorem collect_eq_firstOccurrenceKeep (xs : List (List Char)) :
    collect xs = firstOccurrenceKeep xs := by
  rw [collect, collectAux_eq_firstOccurrenceKeep xs []]
  simp

/-! ## The candidate streams are trimmed -/

theorem activeCandidates_trim {d : Option (List Char)} {c : List Char}
    (h : c ∈ activeCandidates d) : jsTrim c = c := by
  have htr : ∃ y, c = jsTrim y := by
    match d with
    | none => rw [activeCandidates] at h; simp at h
    | some cs =>
      rw [activeCandidates] at h
      by_cases h0 : cs = []
      · rw [if_pos h0] at h; simp at h
      · rw [if_neg h0] at h
        by_cases h1 : collect ((execLoop checkboxMatchAt (searchTextOf cs)).map jsTrim) ≠ []
        · rw [if_pos h1] at h
          obtain ⟨y, _, hy⟩ := List.mem_map.mp h
          exact ⟨y, hy.symm⟩
        · rw [if_neg h1] at h
          by_cases h2 : collect ((execLoop numberedMatchAt (searchTextOf cs)).map jsTrim) ≠ []
          · rw [if_pos h2] at h
            obtain ⟨y, _, hy⟩ := List.mem_map.mp h
            exact ⟨y, hy.symm⟩
          · rw [if_neg h2] at h
            match hsec : acSectionChars cs with
            | some b =>
              rw [hsec] at h
              obtain ⟨y, _, hy⟩ := List.mem_map.mp h
              exact ⟨y, hy.symm⟩
            | none => rw [hsec] at h; simp at h
  obtain ⟨y, rfl⟩ := htr
  exact jsTrim_idem y

/-- The extraction result is the deduplicating collection of the active
strategy's trimmed candidate stream. -/
theorem extract_eq_collect (d : Option (List Char)) :
    extractAcceptanceCriteria d = collect (activeCandidates d) := by
  match d with
  | none => rfl
  | some cs =>
    rw [extractAcceptanceCriteria, activeCandidates]
    by_cases h0 : cs = []
    · rw [if_pos h0, if_pos h0]; rfl
    · rw [if_neg h0, if_neg h0]
      by_cases h1 : collect ((execLoop checkboxMatchAt (searchTextOf cs)).map jsTrim) ≠ []
      · rw [if_pos h1, if_pos h1]
      · rw [if_neg h1, if_neg h1]
        by_cases h2 : collect ((execLoop numberedMatchAt (searchTextOf cs)).map jsTrim) ≠ []
        · rw [if_pos h2, if_pos h2]
        · rw [if_neg h2, if_neg h2]
          match hsec : acSectionChars cs with
          | some b => rfl
          | none => rfl

example :
    extractAcceptanceCriteria
        (some "## Acceptance Criteria\n- [ ] A\n- [x] B\n- [ ] A".toList)
      = ["A".toList, "B".toList] := by decide

example : extractAcceptanceCriteria (some "just prose\n- a bullet".toList) = [] := by
  decide

example :
    extractAcceptanceCriteria (some "## acceptance criteria\n\n\n- [ ] A".toList)
      = ["A".toList] := by decide

/-! ## Claim theorems: extraction -/

/-- C6: for every input description (including null, undefined and the empty
string), extraction returns — without failing — exactly the first-occurrence
deduplication of the active strategy's trimmed candidate stream: elements
are non-empty, equal to their own trim, free of duplicates with the first
occurrence winning, and listed in their order of appearance in the searched
text; absent or pattern-free input yields the empty list. -/
theorem c6_extraction_output_invariants (d : Option (List Char)) :
    extractAcceptanceCriteria d = firstOccurrenceKeep (activeCandidates d)
    ∧ (extractAcceptanceCriteria d).Nodup
    ∧ (∀ c ∈ extractAcceptanceCriteria d, c ≠ [] ∧ jsTrim c = c)
    ∧ List.Sublist (extractAcceptanceCriteria d) (activeCandidates d)
    ∧ (activeCandidates d = [] → extractAcceptanceCriteria d = [])
    ∧ extractAcceptanceCriteria none = []
    ∧ extractAcceptanceCriteria (some []) = [] := by
  rw [extract_eq_collect]
  refine ⟨collect_eq_firstOccurrenceKeep _, collect_nodup _, ?_,
    collect_sublist _, ?_, rfl, rfl⟩
  · intro c hc
    obtain ⟨hmem, hne⟩ := collect_mem hc
    exact ⟨hne, activeCandidates_trim hmem⟩
  · intro h
    rw [h]
    rfl

theorem c6_witness :
    "A".toList ≠ [] ∧ jsTrim "A".toList = "A".toList :=
  (c6_extraction_output_invariants
      (some "## Acceptance Criteria\n- [ ] A\n- [x] B\n- [ ] A".toList)).2.2.1
    "A".toList (by decide)

/-- C7 is false as stated: the lookahead `\n#{1,3}\s` terminates the section
body at any heading of marker depth 1-3, regardless of its depth relative to
the acceptance-criteria heading.  For the depth-1 section below, the claim's
own reading (`takeBodyClaim 1`: only same-or-shallower headings end it)
keeps the depth-2 heading and the line after it in the body, while the
code's body stops in front of the deeper heading and extraction returns only
the first criterion. -/
theorem c7_counterexample :
    acSectionChars "# acceptance criteria\n- [ ] A\n## sub\n- [ ] B".toList
        = some "- [ ] A".toList
    ∧ takeBodyClaim 1 (splitLines "- [ ] A\n## sub\n- [ ] B".toList)
        = splitLines "- [ ] A\n## sub\n- [ ] B".toList
    ∧ ("- [ ] A".toList : List Char) ≠ "- [ ] A\n## sub\n- [ ] B".toList
    ∧ extractAcceptanceCriteria
          (some "# acceptance criteria\n- [ ] A\n## sub\n- [ ] B".toList)
        = ["A".toList]
    ∧ bodyTermAtChars "\n## sub\n- [ ] B".toList = true := by
  decide

/-- C7 (amended): the section body the code searches begins after the last
newline of the whitespace run following the heading text (blank lines
directly after the heading are absorbed by the heading match) and extends up
to, but not including, the first point where a newline is followed by a
heading of one to three hashes and a whitespace character — regardless of
that heading's depth relative to the section's own — or by two further
newlines, or to the end of the text, whichever comes first; a heading of
four or more hashes, or a bare hash line ending the text, does not end
it. -/
theorem c7_section_body_extent :
    (∀ cs b : List Char, findACBody cs = some b →
        acSectionChars cs = some (takeBodyChars b))
    ∧ ∀ b : List Char,
        (∃ t, takeBodyChars b ++ t = b)
        ∧ (∀ i, i < (takeBodyChars b).length → bodyTermAtChars (b.drop i) = false)
        ∧ ((takeBodyChars b).length = b.length
            ∨ bodyTermAtChars (b.drop (takeBodyChars b).length) = true) := by
  constructor
  · intro cs b h
    rw [acSectionChars, h]
    rfl
  · intro b
    induction b with
    | nil =>
      refine ⟨⟨[], rfl⟩, ?_, Or.inl rfl⟩
      intro i hi
      simp [takeBodyChars] at hi
    | cons c rest ih =>
      by_cases h1 : bodyTermAtChars (c :: rest) = true
      · have hb : takeBodyChars (c :: rest) = [] := by rw [takeBodyChars, if_pos h1]
        refine ⟨⟨c :: rest, by rw [hb]; rfl⟩, ?_, Or.inr ?_⟩
        · intro i hi
          rw [hb] at hi
          simp at hi
        · rw [hb]
          simpa using h1
      · have h1' : bodyTermAtChars (c :: rest) = false := by
          cases hx : bodyTermAtChars (c :: rest)
          · rfl
          · exact absurd hx h1
        have hb : takeBodyChars (c :: rest) = c :: takeBodyChars rest := by
          rw [takeBodyChars, if_neg h1]
        obtain ⟨⟨t, ht⟩, hterm, hlast⟩ := ih
        refine ⟨⟨t, by rw [hb, List.cons_append, ht]⟩, ?_, ?_⟩
        · intro i hi
          match i with
          | 0 => simpa using h1'
          | j + 1 =>
            rw [hb, List.length_cons] at hi
            rw [List.drop_succ_cons]
            exact hterm j (Nat.lt_of_succ_lt_succ hi)
        · rw [hb, List.length_cons, List.drop_succ_cons]
          rcases hlast with hl | hl
          · exact Or.inl (by rw [List.length_cons, hl])
          · exact Or.inr hl

theorem c7_witness :
    acSectionChars "# acceptance criteria\nX".toList = some (takeBodyChars "X".toList)
    ∧ bodyTermAtChars ("- [ ] A\n## sub".toList.drop 0) = false :=
  ⟨c7_section_body_extent.1 "# acceptance criteria\nX".toList "X".toList (by decide),
   (c7_section_body_extent.2 "- [ ] A\n## sub".toList).2.1 0 (by decide)⟩

/-- C8: whenever the searched text contains a checkbox match with non-empty
trimmed criterion text, the extraction result is exactly the checkbox
strategy's collection — numbered and plain-bullet matches in the same text
contribute nothing. -/
theorem c8_checkbox_precedence (cs : List Char)
    (h : ∃ cap ∈ execLoop checkboxMatchAt (searchTextOf cs), jsTrim cap ≠ []) :
    extractAcceptanceCriteria (some cs)
      = collect ((execLoop checkboxMatchAt (searchTextOf cs)).map jsTrim) := by
  obtain ⟨cap, hmem, hne⟩ := h
  have hmem2 : jsTrim cap ∈ (execLoop checkboxMatchAt (searchTextOf cs)).map jsTrim :=
    List.mem_map_of_mem _ hmem
  have hcol : collect ((execLoop checkboxMatchAt (searchTextOf cs)).map jsTrim) ≠ [] :=
    collect_ne_nil hmem2 hne
  have hcs : cs ≠ [] := by
    rintro rfl
    have hempty : execLoop checkboxMatchAt (searchTextOf ([] : List Char)) = [] := by
      decide
    rw [hempty] at hmem
    exact List.not_mem_nil cap hmem
  rw [extractAcceptanceCriteria, if_neg hcs, if_pos hcol]

theorem c8_witness :
    extractAcceptanceCriteria (some "- [ ] Alpha\n2. Beta".toList)
      = collect ((execLoop checkboxMatchAt
          (searchTextOf "- [ ] Alpha\n2. Beta".toList)).map jsTrim) :=
  c8_checkbox_precedence _ ⟨"Alpha".toList, by decide, by decide⟩
